import Mathlib

/-!
Shallow embedding of `src/notebooks/utils.py` (class `SwwNorms`), the
word-association-norms preprocessing pipeline, together with proofs of the
specification's claims about it.

Python strings are modelled as Lean `String` (or `List Char` inside the
parser, where Python's `strip`/`split` are character-level); Python `int`
parameters that the claims restrict to be ≥ 1 are modelled as `Nat`;
`collections.Counter` lookups (which default to 0 on a missing key) are
modelled with `List.count`; `dict` / `defaultdict(list)` keyed by strings are
modelled as association lists in insertion order, matching CPython's
insertion-ordered dictionaries.
-/

namespace Sww

/-- Python's `str.lower`, for the ASCII range (the data the program
processes); models `.lower()` calls in `utils.py`. -/
def pyLower (s : String) : String := String.mk (s.data.map Char.toLower)

/-- One row of the norms file: the dictionary with keys
`ctr word assoc_1 assoc_2 assoc_3` built in `SwwNorms.__init__`
(for a well-formed 5-field row). -/
structure Trial where
  ctr : String
  word : String
  assoc_1 : String
  assoc_2 : String
  assoc_3 : String
  deriving DecidableEq, Repr

/-- `stimuli_in_bnc_vocab` from `filter_norms_by_vocabulary`: true iff the
stimulus word and all three associates, lowercased, are in the vocabulary. -/
def stimuli_in_bnc_vocab (vocab_dictionary : List String) (trial_data : Trial) : Bool :=
  [trial_data.word, trial_data.assoc_1, trial_data.assoc_2, trial_data.assoc_3].all
    (fun s => vocab_dictionary.contains (pyLower s))

/-- `SwwNorms.filter_norms_by_vocabulary` (the returned list; the
`in_place=True` variant stores this same list, see the state model below). -/
def filter_norms_by_vocabulary (association_norms : List Trial)
    (vocab_dictionary : List String) : List Trial :=
  association_norms.filter (stimuli_in_bnc_vocab vocab_dictionary)

/-- `SwwNorms.filter_norms_by_stimulus_counts`: the counter is built from the
LOWERCASED stimulus of every trial, but the lookup uses the trial's
original-case `word` (a `Counter` returns 0 on a missing key). -/
def filter_norms_by_stimulus_counts (association_norms : List Trial)
    (minimum_cue_word_count : Nat) : List Trial :=
  let cue_word_counts := association_norms.map (fun t => pyLower t.word)
  association_norms.filter
    (fun t => decide (minimum_cue_word_count ≤ cue_word_counts.count t.word))

/-! ### `gather_associates` -/

/-- `defaultdict(list)` update: `associates[word].extend(new)` — append `new`
to the entry for `w`, creating the entry (at the end, in insertion order)
when absent. -/
def ddExtend : List (String × List String) → String → List String → List (String × List String)
  | [], w, new => [(w, new)]
  | p :: m, w, new =>
    if p.1 = w then (p.1, p.2 ++ new) :: m else p :: ddExtend m w new

/-- Defaultdict lookup with the `defaultdict(list)` default `[]`. -/
def ddLookup : List (String × List String) → String → List String
  | [], _ => []
  | p :: m, w => if p.1 = w then p.2 else ddLookup m w

/-- The three lowercased associates every trial contributes in
`gather_associates`. -/
def trialAssociates (t : Trial) : List String :=
  [pyLower t.assoc_1, pyLower t.assoc_2, pyLower t.assoc_3]

/-- The first loop of `gather_associates`: for each trial, extend the entry of
its lowercased stimulus with the three lowercased associates. -/
def gatherRaw (association_norms : List Trial) : List (String × List String) :=
  association_norms.foldl (fun m t => ddExtend m (pyLower t.word) (trialAssociates t)) []

/-- One `Counter` increment `self[a] += 1`: bump the existing entry in place,
or append a fresh entry with count 1 (a CPython dict keeps insertion order,
so a new key goes to the end and an updated key keeps its position). -/
def counterBump : List (String × Nat) → String → List (String × Nat)
  | [], a => [(a, 1)]
  | p :: m, a => if p.1 = a then (p.1, p.2 + 1) :: m else p :: counterBump m a

/-- `Counter(l).items()`: the (element, multiplicity) pairs of `l`, keys in
first-occurrence order. -/
def counterItems (l : List String) : List (String × Nat) :=
  l.foldl counterBump []

/-- The full associate list accumulated for cue word `w` by the first loop of
`gather_associates`: the concatenation, in trial order, of the three
lowercased associates of every trial whose lowercased stimulus is `w`. -/
def assocsOf (association_norms : List Trial) (w : String) : List String :=
  match association_norms with
  | [] => []
  | t :: ts =>
    (if pyLower t.word = w then trialAssociates t else []) ++ assocsOf ts w

/-- Stable insertion (descending by count) used to model Python's stable
`sorted(..., key=lambda item: item[1], reverse=True)`: the new element, which
comes EARLIER in the original list than everything already placed, goes in
front of the first element whose count is ≤ its own. -/
def insertByCountDesc (x : String × Nat) : List (String × Nat) → List (String × Nat)
  | [] => [x]
  | y :: l => if y.2 ≤ x.2 then x :: y :: l else y :: insertByCountDesc x l

/-- Python's `sorted(items, key=lambda item: item[1], reverse=True)`:
a stable sort, descending by count. -/
def sortByCountDesc (l : List (String × Nat)) : List (String × Nat) :=
  l.foldr insertByCountDesc []

/-- `SwwNorms.gather_associates`: the mapping stored in `self.associates` —
for each cue word (insertion order of the defaultdict), the counted
associates reverse-sorted by count. -/
def gather_associates (association_norms : List Trial) : List (String × List (String × Nat)) :=
  (gatherRaw association_norms).map (fun p => (p.1, sortByCountDesc (counterItems p.2)))

/-! ### `filter_norms_by_associates` -/

/-- Python list indexing `l[i]` with negative-index semantics, returning
`none` exactly when Python raises `IndexError`. -/
def pyGet {α : Type} (l : List α) (i : Int) : Option α :=
  if 0 ≤ i then l.get? i.toNat
  else if (-i).toNat ≤ l.length then l.get? (l.length - (-i).toNat) else none

/-- `has_frequent_associates` from `filter_norms_by_associates`:
`cue_associates_item[minimum_number_of_associates-1][1] >= minimum_associate_count`,
with `IndexError` caught and turned into `False`. -/
def has_frequent_associates (cue_associates_item : List (String × Nat))
    (minimum_number_of_associates minimum_associate_count : Nat) : Bool :=
  match pyGet cue_associates_item ((minimum_number_of_associates : Int) - 1) with
  | some p => decide (minimum_associate_count ≤ p.2)
  | none => false

/-- `SwwNorms.filter_norms_by_associates` (the value computed; with
`in_place=True` it is stored back into `self.associates`). -/
def filter_norms_by_associates (associates : List (String × List (String × Nat)))
    (minimum_number_of_associates minimum_associate_count : Nat) :
    List (String × List (String × Nat)) :=
  associates.filter
    (fun p => has_frequent_associates p.2 minimum_number_of_associates minimum_associate_count)

/-! ### The parser (`SwwNorms.__init__`) -/

/-- The whitespace characters stripped by Python's `str.strip` (ASCII range,
which is what the data contains). -/
def pyIsSpace (c : Char) : Bool :=
  c = ' ' || c = '\t' || c = '\n' || c = '\r' || c = '\x0b' || c = '\x0c'

/-- Python's `str.split(sep)` for a one-character separator: splitting the
empty string yields `[""]`, and every separator occurrence opens a new
(possibly empty) field. -/
def pySplit (sep : Char) : List Char → List (List Char)
  | [] => [[]]
  | c :: cs =>
    match pySplit sep cs with
    | [] => [[]]
    | l :: ls => if c = sep then [] :: l :: ls else (c :: l) :: ls

/-- Python's `str.strip()`: drop leading and trailing whitespace. -/
def pyStrip (l : List Char) : List Char :=
  ((l.dropWhile pyIsSpace).reverse.dropWhile pyIsSpace).reverse

/-- The key tuple `'ctr word assoc_1 assoc_2 assoc_3'.split()`. -/
def rowKeys : List String := ["ctr", "word", "assoc_1", "assoc_2", "assoc_3"]

/-- `dict(zip('ctr word assoc_1 assoc_2 assoc_3'.split(), row.split(';')))`:
`zip` truncates to the shorter sequence and the five keys are distinct, so
the dictionary is the positional pairing. -/
def parse_row (row : List Char) : List (String × List Char) :=
  rowKeys.zip (pySplit ';' row)

/-- `SwwNorms.__init__` on the file contents: strip, split on newlines, and
parse every row into its dictionary. -/
def association_norms_of (contents : List Char) : List (List (String × List Char)) :=
  (pySplit '\n' (pyStrip contents)).map parse_row

/-- `SwwNorms.__len__` after constructing the store from `contents`. -/
def swwLength (contents : List Char) : Nat :=
  (association_norms_of contents).length

/-- The number of lines of a text file, for stating the round-trip-count
claim: 0 for the empty file, otherwise the number of newline-separated
segments, not counting the empty segment after a final newline. -/
def numLines (contents : List Char) : Nat :=
  match contents with
  | [] => 0
  | c :: cs =>
    (pySplit '\n' (c :: cs)).length -
      (if (c :: cs).getLast? = some '\n' then 1 else 0)

/-- The contents of a text file with the given lines: the lines joined by
single newline characters (a trailing newline is handled separately). -/
def joinLines : List (List Char) → List Char
  | [] => []
  | [l] => l
  | l :: l' :: ls => l ++ '\n' :: joinLines (l' :: ls)

/-- A well-formed data row of the documented input format: non-empty,
newline-free, and neither starting nor ending with whitespace (the rows
`participant_id;stimulus;associate_1;associate_2;associate_3` all are). -/
def cleanRow (l : List Char) : Bool :=
  !l.isEmpty && !l.contains '\n' &&
    l.head?.all (fun c => !pyIsSpace c) && l.getLast?.all (fun c => !pyIsSpace c)

/-! ### The stateful store (`in_place` semantics) -/

/-- The mutable state of a `SwwNorms` object: the `association_norms` list
and the `associates` attribute (absent, i.e. `none`, until
`gather_associates` has run). -/
structure SwwNorms where
  association_norms : List Trial
  associates : Option (List (String × List (String × Nat)))
  deriving DecidableEq, Repr

/-- `filter_norms_by_vocabulary` as a method: with `in_place=True` it stores
the filtered list and returns `None`; otherwise it returns the filtered list
and leaves the state alone. -/
def filterByVocabularyOp (st : SwwNorms) (vocab_dictionary : List String)
    (in_place : Bool) : Option (List Trial) × SwwNorms :=
  let r := filter_norms_by_vocabulary st.association_norms vocab_dictionary
  if in_place then (none, { st with association_norms := r }) else (some r, st)

/-- `filter_norms_by_stimulus_counts` as a method (same `in_place` duality). -/
def filterByStimulusCountOp (st : SwwNorms) (minimum_cue_word_count : Nat)
    (in_place : Bool) : Option (List Trial) × SwwNorms :=
  let r := filter_norms_by_stimulus_counts st.association_norms minimum_cue_word_count
  if in_place then (none, { st with association_norms := r }) else (some r, st)

/-- `gather_associates` as a method: always replaces `self.associates`. -/
def gatherAssociatesOp (st : SwwNorms) : SwwNorms :=
  { st with associates := some (gather_associates st.association_norms) }

/-- `filter_norms_by_associates` as a method. Reading `self.associates`
before aggregation is an `AttributeError` in Python; the claims only concern
states where `associates` is populated, so the `none` branch (modelled as a
no-op) is never relied upon. -/
def filterByAssociatesOp (st : SwwNorms)
    (minimum_number_of_associates minimum_associate_count : Nat)
    (in_place : Bool) : Option (List (String × List (String × Nat))) × SwwNorms :=
  match st.associates with
  | none => (none, st)
  | some m =>
    let r := filter_norms_by_associates m minimum_number_of_associates minimum_associate_count
    if in_place then (none, { st with associates := some r }) else (some r, st)

/-! ### Helper lemmas -/

/-- Filtering with a stronger predicate never keeps more elements. -/
theorem length_filter_mono {α : Type} (l : List α) (p q : α → Bool)
    (h : ∀ x ∈ l, p x = true → q x = true) :
    (l.filter p).length ≤ (l.filter q).length := by
  induction l with
  | nil => simp
  | cons a l ih =>
    have ih' := ih (fun x hx hp => h x (List.mem_cons_of_mem a hx) hp)
    by_cases hp : p a = true
    · have hq := h a (List.mem_cons_self a l) hp
      simp [List.filter_cons, hp, hq]
      exact ih'
    · simp only [List.filter_cons]
      rw [if_neg (by simpa using hp)]
      cases hq : q a <;> simp [ih']
      exact Nat.le_succ_of_le ih'

/-- Positional lookup in a zipped list. -/
theorem zip_get? {α β : Type} :
    ∀ (l1 : List α) (l2 : List β) (i : Nat),
      (l1.zip l2).get? i = (l1.get? i).bind (fun a => (l2.get? i).map (fun b => (a, b)))
  | [], _, _ => by simp
  | _ :: _, [], _ => by simp
  | a :: l1, b :: l2, 0 => by simp [List.zip_cons_cons]
  | a :: l1, b :: l2, i + 1 => by
    simpa [List.zip_cons_cons] using zip_get? l1 l2 i

/-- `pyGet` at the non-negative Python index `n - 1` (for `n ≥ 1`) is plain
zero-based lookup at `n - 1`. -/
theorem pyGet_coe_sub_one {α : Type} (l : List α) (n : Nat) (h : 1 ≤ n) :
    pyGet l ((n : Int) - 1) = l.get? (n - 1) := by
  have h0 : (0 : Int) ≤ (n : Int) - 1 := by omega
  have ht : ((n : Int) - 1).toNat = n - 1 := by omega
  simp [pyGet, h0, ht]

/-! ### Claim theorems: the vocabulary and stimulus-count filters -/

/-- C5: the vocabulary filter keeps a trial iff its lowercased stimulus and
all three lowercased associates are in the vocabulary, and the kept trials
form a sublist (same relative order, unchanged field values) of the input. -/
theorem filter_norms_by_vocabulary_spec (association_norms : List Trial)
    (vocab : List String) :
    (filter_norms_by_vocabulary association_norms vocab).Sublist association_norms ∧
    ∀ t : Trial, t ∈ filter_norms_by_vocabulary association_norms vocab ↔
      (t ∈ association_norms ∧ pyLower t.word ∈ vocab ∧ pyLower t.assoc_1 ∈ vocab ∧
        pyLower t.assoc_2 ∈ vocab ∧ pyLower t.assoc_3 ∈ vocab) := by
  refine ⟨List.filter_sublist _, fun t => ?_⟩
  simp [filter_norms_by_vocabulary, stimuli_in_bnc_vocab, List.mem_filter, and_assoc]

/-- C6: the vocabulary filter is idempotent. -/
theorem filter_norms_by_vocabulary_idem (association_norms : List Trial)
    (vocab : List String) :
    filter_norms_by_vocabulary (filter_norms_by_vocabulary association_norms vocab) vocab =
      filter_norms_by_vocabulary association_norms vocab := by
  simp [filter_norms_by_vocabulary, List.filter_filter]

/-- C4: raising the minimum stimulus count never keeps more trials. -/
theorem filter_norms_by_stimulus_counts_mono (association_norms : List Trial)
    (j k : Nat) (h : j ≤ k) :
    (filter_norms_by_stimulus_counts association_norms k).length ≤
      (filter_norms_by_stimulus_counts association_norms j).length := by
  unfold filter_norms_by_stimulus_counts
  exact length_filter_mono _ _ _ (fun t _ hk => by
    simp only [decide_eq_true_eq] at hk ⊢
    omega)

/-- Witness for C4 at a concrete store and thresholds 1 ≤ 2. -/
theorem filter_norms_by_stimulus_counts_mono_witness :
    (1 : Nat) ≤ 2 ∧
    (filter_norms_by_stimulus_counts [⟨"1", "car", "auto", "driver", "vehicle"⟩] 2).length ≤
      (filter_norms_by_stimulus_counts [⟨"1", "car", "auto", "driver", "vehicle"⟩] 1).length :=
  ⟨by decide,
    filter_norms_by_stimulus_counts_mono [⟨"1", "car", "auto", "driver", "vehicle"⟩] 1 2
      (by decide)⟩

/-- C1: the code drops a trial whose stimulus contains an uppercase letter
even when its lowercased stimulus reaches the minimum count, because the
counter is keyed by lowercased words but the lookup uses the original-case
word (and a `Counter` returns 0 on a missing key). -/
theorem stimulus_count_filter_case_bug :
    filter_norms_by_stimulus_counts [⟨"1", "Christmas", "father", "Jesus", "red"⟩] 1 = [] ∧
    ([(⟨"1", "Christmas", "father", "Jesus", "red"⟩ : Trial)].map
        (fun t => pyLower t.word)).count (pyLower "Christmas") = 1 := by
  decide

/-! ### Claim theorems: the associate-frequency filter and the parser -/

/-- C2: with thresholds ≥ 1, the associate filter keeps a stimulus iff its
ranked list has at least `minimum_number_of_associates` entries and the entry
at that rank (1-indexed) has count at least `minimum_associate_count`; a
stimulus with a shorter list is excluded rather than being an error. -/
theorem filter_norms_by_associates_spec
    (associates : List (String × List (String × Nat)))
    (minA minC : Nat) (h1 : 1 ≤ minA) (h2 : 1 ≤ minC)
    (w : String) (s : List (String × Nat)) :
    ((w, s) ∈ filter_norms_by_associates associates minA minC ↔
      ((w, s) ∈ associates ∧ minA ≤ s.length ∧
        ∃ p, s.get? (minA - 1) = some p ∧ minC ≤ p.2)) ∧
    (s.length < minA → (w, s) ∉ filter_norms_by_associates associates minA minC) := by
  have key : (w, s) ∈ filter_norms_by_associates associates minA minC ↔
      ((w, s) ∈ associates ∧ minA ≤ s.length ∧
        ∃ p, s.get? (minA - 1) = some p ∧ minC ≤ p.2) := by
    unfold filter_norms_by_associates
    rw [List.mem_filter]
    unfold has_frequent_associates
    rw [pyGet_coe_sub_one s minA h1]
    cases hget : s.get? (minA - 1) with
    | none =>
      have hlen : s.length ≤ minA - 1 := List.get?_eq_none.mp hget
      simp only [hget]
      constructor
      · rintro ⟨-, h⟩; cases h
      · rintro ⟨-, hle, -⟩; omega
    | some p =>
      have hlt : minA - 1 < s.length := by
        rcases List.get?_eq_some.mp hget with ⟨hh, -⟩
        exact hh
      have hle : minA ≤ s.length := by omega
      simp only [hget, decide_eq_true_eq]
      constructor
      · rintro ⟨hmem, hc⟩
        exact ⟨hmem, hle, p, rfl, hc⟩
      · rintro ⟨hmem, -, p', hp', hc⟩
        cases hp'
        exact ⟨hmem, hc⟩
  refine ⟨key, fun hshort hmem => ?_⟩
  rcases key.mp hmem with ⟨-, hle, -⟩
  omega

/-- Witness for C2 at a concrete aggregated mapping, the spec's §8.5
example: associates `[("auto",5),("vehicle",3)]`, N = 2, M = 3. -/
theorem filter_norms_by_associates_spec_witness :
    (("car", [("auto", 5), ("vehicle", 3)]) ∈
        filter_norms_by_associates [("car", [("auto", 5), ("vehicle", 3)])] 2 3 ↔
      (("car", [("auto", 5), ("vehicle", 3)]) ∈
          [(("car" : String), [(("auto" : String), 5), ("vehicle", 3)])] ∧
        2 ≤ [(("auto" : String), 5), ("vehicle", 3)].length ∧
        ∃ p, [(("auto" : String), 5), ("vehicle", 3)].get? (2 - 1) = some p ∧ 3 ≤ p.2)) ∧
    ([(("auto" : String), 5), ("vehicle", 3)].length < 2 →
      ("car", [("auto", 5), ("vehicle", 3)]) ∉
        filter_norms_by_associates [("car", [("auto", 5), ("vehicle", 3)])] 2 3) :=
  filter_norms_by_associates_spec [("car", [("auto", 5), ("vehicle", 3)])] 2 3
    (by decide) (by decide) "car" [("auto", 5), ("vehicle", 3)]

/-- C10: a parsed row is the positional pairing of the five keys with the
semicolon-separated fields — `min k 5` entries where `k` is the field count,
extra fields silently dropped, missing trailing fields simply absent. -/
theorem parse_row_positional (row : List Char) :
    (parse_row row).length = min (pySplit ';' row).length 5 ∧
    ∀ i : Nat, (parse_row row).get? i =
      (rowKeys.get? i).bind (fun k => ((pySplit ';' row).get? i).map (fun v => (k, v))) := by
  constructor
  · rw [parse_row, List.length_zip, Nat.min_comm]
    rfl
  · intro i
    exact zip_get? rowKeys (pySplit ';' row) i

/-- C8: with `in_place=False`, each of the three filter methods returns the
filtered value and leaves the store (trials and associates alike) unchanged. -/
theorem filters_not_in_place_pure (st : SwwNorms) (vocab : List String)
    (minCount minA minC : Nat) (m : List (String × List (String × Nat)))
    (h : st.associates = some m) :
    (filterByVocabularyOp st vocab false).2 = st ∧
    (filterByVocabularyOp st vocab false).1 =
      some (filter_norms_by_vocabulary st.association_norms vocab) ∧
    (filterByStimulusCountOp st minCount false).2 = st ∧
    (filterByStimulusCountOp st minCount false).1 =
      some (filter_norms_by_stimulus_counts st.association_norms minCount) ∧
    (filterByAssociatesOp st minA minC false).2 = st ∧
    (filterByAssociatesOp st minA minC false).1 =
      some (filter_norms_by_associates m minA minC) := by
  simp [filterByVocabularyOp, filterByStimulusCountOp, filterByAssociatesOp, h]

/-- Witness for C8 at a concrete store with an (empty) aggregated mapping. -/
theorem filters_not_in_place_pure_witness :
    (filterByVocabularyOp ⟨[], some []⟩ [] false).2 = (⟨[], some []⟩ : SwwNorms) ∧
    (filterByVocabularyOp ⟨[], some []⟩ [] false).1 =
      some (filter_norms_by_vocabulary (SwwNorms.mk [] (some [])).association_norms []) ∧
    (filterByStimulusCountOp ⟨[], some []⟩ 1 false).2 = (⟨[], some []⟩ : SwwNorms) ∧
    (filterByStimulusCountOp ⟨[], some []⟩ 1 false).1 =
      some (filter_norms_by_stimulus_counts (SwwNorms.mk [] (some [])).association_norms 1) ∧
    (filterByAssociatesOp ⟨[], some []⟩ 1 1 false).2 = (⟨[], some []⟩ : SwwNorms) ∧
    (filterByAssociatesOp ⟨[], some []⟩ 1 1 false).1 =
      some (filter_norms_by_associates [] 1 1) :=
  filters_not_in_place_pure ⟨[], some []⟩ [] 1 1 1 [] rfl

/-! ### Lemmas about the defaultdict accumulation -/

/-- Lookup after a defaultdict `extend`. -/
theorem ddLookup_ddExtend (m : List (String × List String)) (w w' : String)
    (new : List String) :
    ddLookup (ddExtend m w new) w' =
      ddLookup m w' ++ (if w = w' then new else []) := by
  induction m with
  | nil => by_cases h : w = w' <;> simp [ddExtend, ddLookup, h]
  | cons p m ih =>
    obtain ⟨k, v⟩ := p
    by_cases hp : k = w
    · subst hp
      by_cases hw' : k = w'
      · subst hw'
        simp [ddExtend, ddLookup]
      · simp [ddExtend, ddLookup, hw']
    · by_cases hw' : k = w'
      · subst hw'
        have hww' : ¬(w = k) := fun h => hp h.symm
        simp [ddExtend, ddLookup, hp, hww']
      · simp [ddExtend, ddLookup, hp, hw', ih]

/-- The keys of a defaultdict after an `extend`. -/
theorem map_fst_ddExtend (m : List (String × List String)) (w : String)
    (new : List String) :
    (ddExtend m w new).map Prod.fst =
      if w ∈ m.map Prod.fst then m.map Prod.fst else m.map Prod.fst ++ [w] := by
  induction m with
  | nil => simp [ddExtend]
  | cons p m ih =>
    obtain ⟨k, v⟩ := p
    by_cases hp : k = w
    · subst hp
      simp [ddExtend]
    · have hwk : ¬(w = k) := fun h => hp h.symm
      by_cases hm : w ∈ m.map Prod.fst <;>
        simp [ddExtend, hp, hwk, hm, ih]

/-- `extend` keeps the keys of a defaultdict distinct. -/
theorem nodup_map_fst_ddExtend (m : List (String × List String)) (w : String)
    (new : List String) (h : (m.map Prod.fst).Nodup) :
    ((ddExtend m w new).map Prod.fst).Nodup := by
  rw [map_fst_ddExtend]
  by_cases hm : w ∈ m.map Prod.fst
  · simpa [hm] using h
  · rw [if_neg hm]
    simp only [List.nodup_append, List.nodup_cons, List.nodup_nil]
    exact ⟨h, by simp, by simpa [List.disjoint_singleton] using hm⟩

/-- In a defaultdict with distinct keys, membership determines the lookup. -/
theorem ddLookup_of_mem (m : List (String × List String)) (w : String)
    (l : List String) (hnd : (m.map Prod.fst).Nodup) (h : (w, l) ∈ m) :
    ddLookup m w = l := by
  induction m with
  | nil => cases h
  | cons p m ih =>
    obtain ⟨k, v⟩ := p
    rw [List.map_cons, List.nodup_cons] at hnd
    rcases List.mem_cons.mp h with heq | hmem
    · cases heq
      simp [ddLookup]
    · have hk : ¬(k = w) := by
        intro hk
        apply hnd.1
        subst hk
        simpa using List.mem_map_of_mem Prod.fst hmem
      simp [ddLookup, hk, ih hnd.2 hmem]

/-- Invariant of the first loop of `gather_associates`: the accumulated entry
of every cue word is its `assocsOf` list, appended after whatever the
accumulator already held. -/
theorem foldl_ddExtend_lookup (ts : List Trial) :
    ∀ (m : List (String × List String)) (w : String),
      ddLookup (ts.foldl (fun m t => ddExtend m (pyLower t.word) (trialAssociates t)) m) w =
        ddLookup m w ++ assocsOf ts w := by
  induction ts with
  | nil => intro m w; simp [assocsOf]
  | cons t ts ih =>
    intro m w
    rw [List.foldl_cons, ih, ddLookup_ddExtend, assocsOf, List.append_assoc]

/-- The first loop keeps cue-word keys distinct. -/
theorem gatherRaw_keys_nodup (ts : List Trial) :
    ((gatherRaw ts).map Prod.fst).Nodup := by
  have aux : ∀ (m : List (String × List String)), (m.map Prod.fst).Nodup →
      (((ts.foldl (fun m t => ddExtend m (pyLower t.word) (trialAssociates t)) m)).map
        Prod.fst).Nodup := by
    induction ts with
    | nil => intro m hm; simpa using hm
    | cons t ts ih =>
      intro m hm
      rw [List.foldl_cons]
      exact ih _ (nodup_map_fst_ddExtend m _ _ hm)
  exact aux [] (by simp)

/-- Every entry of the accumulated defaultdict is the full associate list of
its cue word. -/
theorem mem_gatherRaw (ts : List Trial) (w : String) (l : List String)
    (h : (w, l) ∈ gatherRaw ts) : l = assocsOf ts w := by
  have h1 : ddLookup (gatherRaw ts) w = l :=
    ddLookup_of_mem _ _ _ (gatherRaw_keys_nodup ts) h
  have h2 : ddLookup (gatherRaw ts) w = assocsOf ts w := by
    have := foldl_ddExtend_lookup ts [] w
    simpa [gatherRaw, ddLookup] using this
  rw [h2] at h1
  exact h1.symm

/-! ### Lemmas about the stable descending sort -/

/-- Inserting permutes: the result holds the new element and the old ones. -/
theorem perm_insertByCountDesc (x : String × Nat) (l : List (String × Nat)) :
    (insertByCountDesc x l).Perm (x :: l) := by
  induction l with
  | nil => simp [insertByCountDesc]
  | cons y l ih =>
    rw [insertByCountDesc]
    by_cases h : y.2 ≤ x.2
    · rw [if_pos h]
    · rw [if_neg h]
      exact (ih.cons y).trans (List.Perm.swap x y l)

/-- Sorting permutes. -/
theorem perm_sortByCountDesc (l : List (String × Nat)) :
    (sortByCountDesc l).Perm l := by
  induction l with
  | nil => simp [sortByCountDesc]
  | cons x l ih =>
    have : sortByCountDesc (x :: l) = insertByCountDesc x (sortByCountDesc l) := rfl
    rw [this]
    exact (perm_insertByCountDesc x _).trans (ih.cons x)

/-- Inserting into a list with non-increasing counts keeps them
non-increasing. -/
theorem pairwise_insertByCountDesc (x : String × Nat) (l : List (String × Nat))
    (h : l.Pairwise (fun a b => b.2 ≤ a.2)) :
    (insertByCountDesc x l).Pairwise (fun a b => b.2 ≤ a.2) := by
  induction l with
  | nil => simp [insertByCountDesc]
  | cons y l ih =>
    rw [List.pairwise_cons] at h
    rw [insertByCountDesc]
    by_cases hc : y.2 ≤ x.2
    · rw [if_pos hc]
      rw [List.pairwise_cons]
      refine ⟨fun z hz => ?_, List.pairwise_cons.mpr h⟩
      rcases List.mem_cons.mp hz with rfl | hz
      · exact hc
      · exact Nat.le_trans (h.1 z hz) hc
    · rw [if_neg hc]
      rw [List.pairwise_cons]
      refine ⟨fun z hz => ?_, ih h.2⟩
      rcases List.mem_cons.mp ((perm_insertByCountDesc x l).mem_iff.mp hz) with rfl | hz
      · exact Nat.le_of_lt (Nat.lt_of_not_le hc)
      · exact h.1 z hz

/-- The sorted associate list has non-increasing counts. -/
theorem pairwise_sortByCountDesc (l : List (String × Nat)) :
    (sortByCountDesc l).Pairwise (fun a b => b.2 ≤ a.2) := by
  induction l with
  | nil => simp [sortByCountDesc]
  | cons x l ih => exact pairwise_insertByCountDesc x _ ih

/-- Stability of the insertion: restricted to any single count value, the
inserted element lands in front (it came earlier in the original list), and
the rest keep their order. -/
theorem filter_insertByCountDesc (x : String × Nat) (l : List (String × Nat))
    (c : Nat) :
    (insertByCountDesc x l).filter (fun p => p.2 = c) =
      if x.2 = c then x :: l.filter (fun p => p.2 = c)
      else l.filter (fun p => p.2 = c) := by
  induction l with
  | nil => by_cases hx : x.2 = c <;> simp [insertByCountDesc, hx]
  | cons y l ih =>
    rw [insertByCountDesc]
    by_cases hc : y.2 ≤ x.2
    · rw [if_pos hc]
      by_cases hx : x.2 = c <;> simp [List.filter_cons, hx]
    · rw [if_neg hc]
      by_cases hx : x.2 = c
      · have hy : ¬(y.2 = c) := by omega
        simp [List.filter_cons, hx, hy, ih]
      · by_cases hy : y.2 = c <;> simp [List.filter_cons, hx, hy, ih]

/-- Stability of the sort: restricted to any single count value, the sorted
list keeps the original (first-counted) order. -/
theorem filter_sortByCountDesc (l : List (String × Nat)) (c : Nat) :
    (sortByCountDesc l).filter (fun p => p.2 = c) = l.filter (fun p => p.2 = c) := by
  induction l with
  | nil => simp [sortByCountDesc]
  | cons x l ih =>
    have hs : sortByCountDesc (x :: l) = insertByCountDesc x (sortByCountDesc l) := rfl
    rw [hs, filter_insertByCountDesc]
    by_cases hx : x.2 = c <;> simp [List.filter_cons, hx, ih]

/-! ### Lemmas about `Counter` -/

/-- A `Counter` increment raises the total count by one. -/
theorem sum_counterBump (m : List (String × Nat)) (a : String) :
    ((counterBump m a).map (fun p => p.2)).sum = ((m.map (fun p => p.2)).sum) + 1 := by
  induction m with
  | nil => simp [counterBump]
  | cons p m ih =>
    by_cases h : p.1 = a
    · simp [counterBump, h]
      omega
    · simp [counterBump, h, ih]
      omega

/-- A `Counter` increment keeps every count positive. -/
theorem pos_counterBump (m : List (String × Nat)) (a : String)
    (h : ∀ p ∈ m, 1 ≤ p.2) : ∀ p ∈ counterBump m a, 1 ≤ p.2 := by
  induction m with
  | nil =>
    intro p hp
    rcases List.mem_singleton.mp hp with rfl
    simp
  | cons q m ih =>
    intro p hp
    by_cases hq : q.1 = a
    · rw [counterBump, if_pos hq] at hp
      rcases List.mem_cons.mp hp with rfl | hp
      · have := h q (List.mem_cons_self q m)
        simpa using Nat.le_succ_of_le this
      · exact h p (List.mem_cons_of_mem q hp)
    · rw [counterBump, if_neg hq] at hp
      rcases List.mem_cons.mp hp with rfl | hp
      · exact h p (List.mem_cons_self p m)
      · exact ih (fun r hr => h r (List.mem_cons_of_mem q hr)) p hp

/-- The counts of `Counter(l)` add up to the length of `l`. -/
theorem sum_counterItems (l : List String) :
    ((counterItems l).map (fun p => p.2)).sum = l.length := by
  have aux : ∀ (l : List String) (m : List (String × Nat)),
      ((l.foldl counterBump m).map (fun p => p.2)).sum =
        ((m.map (fun p => p.2)).sum) + l.length := by
    intro l
    induction l with
    | nil => intro m; simp
    | cons a l ih =>
      intro m
      rw [List.foldl_cons, ih, sum_counterBump]
      simp
      omega
  simpa [counterItems] using aux l []

/-- Every count of `Counter(l)` is at least 1. -/
theorem pos_counterItems (l : List String) : ∀ p ∈ counterItems l, 1 ≤ p.2 := by
  have aux : ∀ (l : List String) (m : List (String × Nat)),
      (∀ p ∈ m, 1 ≤ p.2) → ∀ p ∈ l.foldl counterBump m, 1 ≤ p.2 := by
    intro l
    induction l with
    | nil => intro m hm; simpa using hm
    | cons a l ih =>
      intro m hm
      rw [List.foldl_cons]
      exact ih _ (pos_counterBump m a hm)
  exact aux l [] (by simp)

/-- Every trial whose lowercased stimulus is `w` contributes exactly 3
entries to the accumulated associate list of `w`. -/
theorem length_assocsOf (ts : List Trial) (w : String) :
    (assocsOf ts w).length = 3 * (ts.filter (fun t => pyLower t.word = w)).length := by
  induction ts with
  | nil => simp [assocsOf]
  | cons t ts ih =>
    rw [assocsOf]
    by_cases h : pyLower t.word = w
    · simp [List.filter_cons, h, trialAssociates, ih]
      omega
    · simp [List.filter_cons, h, ih]

/-! ### Claim theorems: `gather_associates` -/

/-- C3: after aggregation, every stimulus entry has non-increasing counts,
and among entries with equal counts the relative order is the order of
`Counter(...).items()`, i.e. the order in which the distinct associates were
first counted. -/
theorem gather_associates_sorted_stable (association_norms : List Trial)
    (w : String) (s : List (String × Nat))
    (h : (w, s) ∈ gather_associates association_norms) :
    s.Pairwise (fun a b => b.2 ≤ a.2) ∧
    ∀ c : Nat, s.filter (fun p => p.2 = c) =
      (counterItems (assocsOf association_norms w)).filter (fun p => p.2 = c) := by
  obtain ⟨⟨w', l⟩, hp, heq⟩ := List.mem_map.mp h
  obtain ⟨rfl, rfl⟩ := Prod.mk.injEq .. |>.mp heq
  have hl : l = assocsOf association_norms w' := mem_gatherRaw _ _ _ hp
  subst hl
  exact ⟨pairwise_sortByCountDesc _, fun c => filter_sortByCountDesc _ c⟩

/-- Witness for C3 on the store parsed from the single row
`1;car;auto;auto;vehicle`, whose aggregate for `car` is
`[("auto", 2), ("vehicle", 1)]`, checked at count value 2. -/
theorem gather_associates_sorted_stable_witness :
    ([(("auto" : String), 2), ("vehicle", 1)] : List (String × Nat)).Pairwise
      (fun a b => b.2 ≤ a.2) ∧
    ([(("auto" : String), 2), ("vehicle", 1)] : List (String × Nat)).filter
        (fun p => p.2 = 2) =
      (counterItems (assocsOf [⟨"1", "car", "auto", "auto", "vehicle"⟩] "car")).filter
        (fun p => p.2 = 2) := by
  have h : (("car", [(("auto" : String), 2), ("vehicle", 1)]) :
      String × List (String × Nat)) ∈
      gather_associates [⟨"1", "car", "auto", "auto", "vehicle"⟩] := by decide
  exact ⟨(gather_associates_sorted_stable _ _ _ h).1,
    (gather_associates_sorted_stable _ _ _ h).2 2⟩

/-- C9: after aggregation, every count is at least 1 and, for each stimulus
key, the counts add up to 3 times the number of trials whose lowercased
stimulus is that key: every associate of every matching trial is accounted
for exactly once. -/
theorem gather_associates_counts_total (association_norms : List Trial)
    (w : String) (s : List (String × Nat))
    (h : (w, s) ∈ gather_associates association_norms) :
    (∀ p ∈ s, 1 ≤ p.2) ∧
    (s.map (fun p => p.2)).sum =
      3 * (association_norms.filter (fun t => pyLower t.word = w)).length := by
  obtain ⟨⟨w', l⟩, hp, heq⟩ := List.mem_map.mp h
  obtain ⟨rfl, rfl⟩ := Prod.mk.injEq .. |>.mp heq
  have hl : l = assocsOf association_norms w' := mem_gatherRaw _ _ _ hp
  subst hl
  have hperm := perm_sortByCountDesc (counterItems (assocsOf association_norms w'))
  constructor
  · intro p hpmem
    exact pos_counterItems _ p (hperm.mem_iff.mp hpmem)
  · calc ((sortByCountDesc (counterItems (assocsOf association_norms w'))).map
          (fun p => p.2)).sum
        = ((counterItems (assocsOf association_norms w')).map (fun p => p.2)).sum :=
          (hperm.map (fun p => p.2)).sum_eq
      _ = (assocsOf association_norms w').length := sum_counterItems _
      _ = 3 * (association_norms.filter (fun t => pyLower t.word = w')).length :=
          length_assocsOf _ _

/-- Witness for C9 on the same single-row store: counts `[2, 1]` are
positive and add up to 3 × 1. -/
theorem gather_associates_counts_total_witness :
    (1 : Nat) ≤ ((("auto" : String), 2) : String × Nat).2 ∧
    (([(("auto" : String), 2), ("vehicle", 1)] : List (String × Nat)).map
        (fun p => p.2)).sum =
      3 * ([(⟨"1", "car", "auto", "auto", "vehicle"⟩ : Trial)].filter
        (fun t => pyLower t.word = "car")).length := by
  have h : (("car", [(("auto" : String), 2), ("vehicle", 1)]) :
      String × List (String × Nat)) ∈
      gather_associates [⟨"1", "car", "auto", "auto", "vehicle"⟩] := by decide
  exact ⟨(gather_associates_counts_total _ _ _ h).1 ("auto", 2) (by decide),
    (gather_associates_counts_total _ _ _ h).2⟩

/-! ### Lemmas about the parser -/

/-- `str.split` never returns an empty field list. -/
theorem pySplit_ne_nil (sep : Char) (cs : List Char) : pySplit sep cs ≠ [] := by
  cases cs with
  | nil => simp [pySplit]
  | cons c cs =>
    rw [pySplit]
    cases h : pySplit sep cs with
    | nil => simp
    | cons l ls => by_cases hc : c = sep <;> simp [hc]

/-- Splitting peels off a separator-free prefix as the first field. -/
theorem pySplit_append_sep (sep : Char) (l rest : List Char) (h : sep ∉ l) :
    pySplit sep (l ++ sep :: rest) = l :: pySplit sep rest := by
  induction l with
  | nil =>
    cases hr : pySplit sep rest with
    | nil => exact absurd hr (pySplit_ne_nil sep rest)
    | cons r rs => simp [pySplit, hr]
  | cons c l ih =>
    have hc : ¬(c = sep) := by
      intro hc
      apply h
      rw [← hc]
      exact List.mem_cons_self c l
    have hl : sep ∉ l := fun hm => h (List.mem_cons_of_mem c hm)
    simp [pySplit, ih hl, hc]

/-- Splitting a separator-free string yields a single field. -/
theorem pySplit_no_sep (sep : Char) (l : List Char) (h : sep ∉ l) :
    pySplit sep l = [l] := by
  induction l with
  | nil => rfl
  | cons c cs ih =>
    have hc : ¬(c = sep) := by
      intro hc
      apply h
      rw [← hc]
      exact List.mem_cons_self c cs
    have hcs : sep ∉ cs := fun hm => h (List.mem_cons_of_mem c hm)
    simp [pySplit, ih hcs, hc]

/-- Splitting the newline-joined lines on newlines recovers the lines. -/
theorem pySplit_joinLines (lines : List (List Char)) (h1 : lines ≠ [])
    (h2 : ∀ l ∈ lines, ('\n' : Char) ∉ l) :
    pySplit '\n' (joinLines lines) = lines := by
  induction lines with
  | nil => exact absurd rfl h1
  | cons l ls ih =>
    cases ls with
    | nil =>
      show pySplit '\n' l = [l]
      exact pySplit_no_sep _ l (h2 l (List.mem_cons_self _ _))
    | cons l' ls' =>
      show pySplit '\n' (l ++ '\n' :: joinLines (l' :: ls')) = l :: l' :: ls'
      rw [pySplit_append_sep '\n' l _ (h2 l (List.mem_cons_self _ _))]
      rw [ih (by simp) (fun m hm => h2 m (List.mem_cons_of_mem l hm))]

/-- The joined contents of a non-empty list of non-empty lines is non-empty. -/
theorem joinLines_ne_nil (lines : List (List Char)) (h1 : lines ≠ [])
    (h2 : ∀ l ∈ lines, l ≠ []) : joinLines lines ≠ [] := by
  cases lines with
  | nil => exact absurd rfl h1
  | cons l ls =>
    cases ls with
    | nil => exact h2 l (List.mem_cons_self _ _)
    | cons l' ls' =>
      show l ++ '\n' :: joinLines (l' :: ls') ≠ []
      simp

/-- The first character of the joined contents is the first character of the
first line. -/
theorem head?_joinLines (l : List Char) (ls : List (List Char)) (h : l ≠ []) :
    (joinLines (l :: ls)).head? = l.head? := by
  cases ls with
  | nil => rfl
  | cons l' ls' =>
    show (l ++ '\n' :: joinLines (l' :: ls')).head? = l.head?
    cases l with
    | nil => exact absurd rfl h
    | cons c cs => rfl

/-- The last character of the joined contents is the last character of the
last line. -/
theorem getLast?_joinLines (ls : List (List Char)) :
    ∀ (l : List Char), (∀ m ∈ l :: ls, m ≠ []) →
      (joinLines (l :: ls)).getLast? = ((l :: ls).getLast (List.cons_ne_nil l ls)).getLast? := by
  induction ls with
  | nil => intro l h; rfl
  | cons l' ls' ih =>
    intro l h
    show (l ++ '\n' :: joinLines (l' :: ls')).getLast? = _
    have hne : joinLines (l' :: ls') ≠ [] :=
      joinLines_ne_nil _ (by simp) (fun m hm => h m (List.mem_cons_of_mem l hm))
    have hlast : ('\n' :: joinLines (l' :: ls')).getLast? = (joinLines (l' :: ls')).getLast? := by
      show ((['\n'] ++ joinLines (l' :: ls'))).getLast? = _
      rw [List.getLast?_append]
      cases hj : (joinLines (l' :: ls')).getLast? with
      | none => exact absurd (List.getLast?_eq_none_iff.mp hj) hne
      | some d => rfl
    rw [List.getLast?_append, hlast,
      ih l' (fun m hm => h m (List.mem_cons_of_mem l hm))]
    have : ((l :: l' :: ls').getLast (List.cons_ne_nil l (l' :: ls'))) =
        ((l' :: ls').getLast (List.cons_ne_nil l' ls')) := List.getLast_cons _
    rw [this]
    cases hj : ((l' :: ls').getLast (List.cons_ne_nil l' ls')).getLast? with
    | none =>
      have hmem := List.getLast_mem (List.cons_ne_nil l' ls')
      exact absurd (List.getLast?_eq_none_iff.mp hj)
        (h _ (List.mem_cons_of_mem l hmem))
    | some d => rfl

/-- `dropWhile` is the identity on a list whose first element fails the
predicate. -/
theorem dropWhile_eq_self_of_head (p : Char → Bool) (l : List Char) (c : Char)
    (hh : l.head? = some c) (hc : p c = false) : l.dropWhile p = l := by
  cases l with
  | nil => cases hh
  | cons a as =>
    rw [List.head?_cons, Option.some.injEq] at hh
    subst hh
    rw [List.dropWhile_cons, if_neg (by simp [hc])]

/-- `strip` is the identity on contents that neither start nor end with
whitespace. -/
theorem pyStrip_eq_self (l : List Char) (c d : Char)
    (hh : l.head? = some c) (hc : pyIsSpace c = false)
    (hl : l.getLast? = some d) (hd : pyIsSpace d = false) : pyStrip l = l := by
  rw [pyStrip, dropWhile_eq_self_of_head _ _ _ hh hc,
    dropWhile_eq_self_of_head _ _ _ (by rw [List.head?_reverse]; exact hl) hd,
    List.reverse_reverse]

/-- `strip` removes exactly the trailing newline from such contents. -/
theorem pyStrip_append_newline (l : List Char) (c d : Char)
    (hh : l.head? = some c) (hc : pyIsSpace c = false)
    (hl : l.getLast? = some d) (hd : pyIsSpace d = false) :
    pyStrip (l ++ ['\n']) = l := by
  obtain ⟨c', cs, rfl⟩ : ∃ c' cs, l = c' :: cs := by
    cases l with
    | nil => cases hh
    | cons a as => exact ⟨a, as, rfl⟩
  rw [List.head?_cons, Option.some.injEq] at hh
  have hc' : pyIsSpace c' = false := by
    rw [hh]
    exact hc
  rw [pyStrip, List.cons_append]
  rw [dropWhile_eq_self_of_head pyIsSpace (c' :: (cs ++ ['\n'])) c' rfl hc']
  have hrev : (c' :: (cs ++ ['\n'])).reverse = '\n' :: (c' :: cs).reverse := by
    rw [← List.cons_append, List.reverse_append]
    rfl
  rw [hrev, List.dropWhile_cons, if_pos (by simp [pyIsSpace]),
    dropWhile_eq_self_of_head _ _ d (by rw [List.head?_reverse]; exact hl) hd,
    List.reverse_reverse]

/-- Unpacking `cleanRow`. -/
theorem cleanRow_props (l : List Char) (h : cleanRow l = true) :
    l ≠ [] ∧ (('\n' : Char) ∉ l) ∧
    (∃ c, l.head? = some c ∧ pyIsSpace c = false) ∧
    (∃ d, l.getLast? = some d ∧ pyIsSpace d = false) := by
  rw [cleanRow] at h
  simp only [Bool.and_eq_true, Bool.not_eq_true'] at h
  obtain ⟨⟨⟨h1, h2⟩, h3⟩, h4⟩ := h
  have hne : l ≠ [] := by
    intro hnil
    rw [hnil] at h1
    simp [List.isEmpty] at h1
  refine ⟨hne, ?_, ?_, ?_⟩
  · intro hmem
    rw [← List.elem_iff] at hmem
    rw [List.contains] at h2
    rw [hmem] at h2
    cases h2
  · cases hl : l.head? with
    | none => exact absurd (List.head?_eq_none_iff.mp hl) hne
    | some c =>
      refine ⟨c, rfl, ?_⟩
      rw [hl] at h3
      simpa using h3
  · cases hl : l.getLast? with
    | none => exact absurd (List.getLast?_eq_none_iff.mp hl) hne
    | some d =>
      refine ⟨d, rfl, ?_⟩
      rw [hl] at h4
      simpa using h4

/-! ### Claim theorems: the parser -/

/-- C7 counterexample: an empty (0-line) file still yields one trial,
because `''.strip().split('\n')` is `['']` — so `length()` is 1, not 0. -/
theorem swwLength_empty_file_cex :
    numLines [] = 0 ∧ swwLength [] = 1 ∧ swwLength [] ≠ numLines [] := by
  decide

/-- C7 (amended): for a file in the documented row format — at least one
line, each line a non-empty, newline-free row with no leading or trailing
whitespace, with or without a final trailing newline — `length()` equals the
number of lines. -/
theorem swwLength_counts_lines (lines : List (List Char)) (contents : List Char)
    (h1 : lines ≠ []) (h2 : ∀ l ∈ lines, cleanRow l = true)
    (h3 : contents = joinLines lines ∨ contents = joinLines lines ++ ['\n']) :
    swwLength contents = lines.length := by
  have hne : ∀ l ∈ lines, l ≠ [] := fun l hl => (cleanRow_props l (h2 l hl)).1
  have hnnl : ∀ l ∈ lines, ('\n' : Char) ∉ l :=
    fun l hl => (cleanRow_props l (h2 l hl)).2.1
  obtain ⟨l0, ls, rfl⟩ : ∃ l0 ls, lines = l0 :: ls := by
    cases lines with
    | nil => exact absurd rfl h1
    | cons a as => exact ⟨a, as, rfl⟩
  obtain ⟨c, hch, hc⟩ := (cleanRow_props l0 (h2 l0 (List.mem_cons_self _ _))).2.2.1
  have hjh : (joinLines (l0 :: ls)).head? = some c := by
    rw [head?_joinLines l0 ls (hne l0 (List.mem_cons_self _ _))]
    exact hch
  have hlastmem := List.getLast_mem (List.cons_ne_nil l0 ls)
  obtain ⟨d, hdh, hd⟩ := (cleanRow_props _ (h2 _ hlastmem)).2.2.2
  have hjl : (joinLines (l0 :: ls)).getLast? = some d := by
    rw [getLast?_joinLines ls l0 hne]
    exact hdh
  have hstrip : pyStrip contents = joinLines (l0 :: ls) := by
    rcases h3 with rfl | rfl
    · exact pyStrip_eq_self _ c d hjh hc hjl hd
    · exact pyStrip_append_newline _ c d hjh hc hjl hd
  rw [swwLength, association_norms_of, hstrip, List.length_map,
    pySplit_joinLines _ h1 hnnl]

/-- Witness for the amended C7 on a concrete two-line file (with trailing
newline). -/
theorem swwLength_counts_lines_witness :
    swwLength (joinLines ["1;a;b;c;d".toList, "2;e;f;g;h".toList] ++ ['\n']) =
      (["1;a;b;c;d".toList, "2;e;f;g;h".toList] : List (List Char)).length :=
  swwLength_counts_lines ["1;a;b;c;d".toList, "2;e;f;g;h".toList] _
    (by decide) (by decide) (Or.inr rfl)

end Sww
